import Mathlib

/-!
Verification of the outline-extractor and compile-orchestrator logic of the
latex-compiler repository.

The extractor is embedded from the function `extract_toc_lines` in
`advanced_interactive_texcompiler.py` (lines 40 to 52) and
`interactive_latexpdf_compiler.py` (lines 40 to 52): the Python code compiles
the regular expression
backslash, one of seven heading keywords, optional star, optional whitespace,
open brace, a run of non-close-brace characters, close brace,
and applies `pattern.search` to each line of the document, appending one
record (title, line index, level) per line whose search succeeds.

The compile orchestrator is embedded from the shared pattern in
`latex_compiler.py` (lines 85 to 128), `advanced_texcompilation.py`
(lines 89 to 111), `advanced_latex_compiler.py` (lines 82 to 108),
`advanced_interactive_texcompiler.py` (lines 144 to 182) and
`interactive_latexpdf_compiler.py` (lines 131 to 171):
run latexmk as a subprocess with a 120 second timeout, succeed exactly when
the return code is zero and the expected PDF exists, otherwise report the
concatenation of standard output and standard error; a timeout or any other
exception is caught and classified.
-/

/-! ## Outline extractor: character-level embedding of the heading regex -/

/-- The seven heading keywords, in the order they appear in the regex
alternation of `extract_toc_lines`. -/
def headingKinds : List String :=
  ["part", "chapter", "section", "subsection", "subsubsection", "paragraph",
   "subparagraph"]

/-- Match a literal keyword at the front of the input and return the rest;
`none` when the input does not start with the keyword. -/
def stripKeyword : List Char → List Char → Option (List Char)
  | [], cs => some cs
  | _ :: _, [] => none
  | k :: ks, c :: cs => if c = k then stripKeyword ks cs else none

/-- The regex alternation: try each of the seven keywords in order at the
current position.  No keyword is a prefix of another, so at most one
alternative can match and committing to it is faithful to the
backtracking regex engine. -/
def matchKeyword (cs : List Char) : Option (String × List Char) :=
  headingKinds.findSome? fun k =>
    (stripKeyword k.toList cs).map fun rest => (k, rest)

/-- The ASCII characters matched by the Python regex class backslash-s. -/
def pySpace (c : Char) : Bool :=
  c = ' ' || c = '\t' || c = '\n' || c = '\r' || c = '\x0b' || c = '\x0c'

/-- The optional star after the keyword (regex: backslash-star question
mark). -/
def dropStar : List Char → List Char
  | [] => []
  | c :: cs => if c = '*' then cs else c :: cs

/-- The braced title argument body: the run of non-close-brace characters up
to the first close brace (regex: open brace, character class excluding close
brace starred, close brace).  `none` when no close brace follows. -/
def takeTitle : List Char → Option (List Char)
  | [] => none
  | c :: cs => if c = '}' then some [] else (takeTitle cs).map fun t => c :: t

/-- Match the whole heading regex anchored at the current position: a
backslash, a keyword, an optional star, optional whitespace, then the braced
title.  Returns the matched level keyword and the title characters. -/
def matchHeadingAt : List Char → Option (String × List Char)
  | '\\' :: rest =>
    match matchKeyword rest with
    | none => none
    | some (k, after) =>
      match (dropStar after).dropWhile pySpace with
      | '{' :: body => (takeTitle body).map fun t => (k, t)
      | _ => none
  | _ => none

/-- `pattern.search` on one line: the match at the leftmost position where
the anchored match succeeds. -/
def lineSearch : List Char → Option (String × List Char)
  | [] => none
  | c :: cs =>
    match matchHeadingAt (c :: cs) with
    | some r => some r
    | none => lineSearch cs

/-- Whether a line contains at least one recognized heading command, that
is, whether the anchored match succeeds at some position of the line. -/
def hasHeading (cs : List Char) : Bool :=
  (List.range (cs.length + 1)).any fun i => (matchHeadingAt (cs.drop i)).isSome

/-- Python `str.splitlines` restricted to the usual line terminators:
newline, carriage return, and carriage return followed by newline.  A
trailing terminator does not produce an extra empty line. -/
def splitlinesAux (acc : List Char) : List Char → List (List Char)
  | [] => [acc.reverse]
  | ['\r', '\n'] => [acc.reverse]
  | '\r' :: '\n' :: c :: cs => acc.reverse :: splitlinesAux [] (c :: cs)
  | ['\n'] => [acc.reverse]
  | '\n' :: c :: cs => acc.reverse :: splitlinesAux [] (c :: cs)
  | ['\r'] => [acc.reverse]
  | '\r' :: c :: cs => acc.reverse :: splitlinesAux [] (c :: cs)
  | c :: cs => splitlinesAux (c :: acc) cs

/-- Split a document into lines; the empty document has no lines. -/
def splitlinesChars : List Char → List (List Char)
  | [] => []
  | cs => splitlinesAux [] cs

/-- The characters of a heading whose braced argument body is `body`: a
backslash, a recognized keyword, an optional star, whitespace, then an open
brace followed by the body. -/
def headingLineBody (kind : String) (star : Bool) (ws body : List Char) :
    List Char :=
  '\\' :: (kind.toList ++ ((if star then ['*'] else []) ++ (ws ++ '{' :: body)))

/-- The characters of a well-formed heading: as `headingLineBody`, with the
body a brace-free title closed by a close brace and followed by arbitrary
trailing characters. -/
def headingLine (kind : String) (star : Bool) (ws title rest : List Char) :
    List Char :=
  headingLineBody kind star ws (title ++ '}' :: rest)

/-- One table-of-contents record, as built by `extract_toc_lines`: the
dictionary with keys title, line and level. -/
structure TocItem where
  title : String
  line : Nat
  level : String
deriving DecidableEq, Repr

/-- The enumerate-and-append loop of `extract_toc_lines`: one record per
line whose search succeeds, carrying the zero-based line index. -/
def tocAux (i : Nat) : List (List Char) → List TocItem
  | [] => []
  | l :: ls =>
    match lineSearch l with
    | some (lv, t) => ⟨String.mk t, i, lv⟩ :: tocAux (i + 1) ls
    | none => tocAux (i + 1) ls

/-- `extract_toc_lines` from `advanced_interactive_texcompiler.py` lines 40
to 52 (identical in `interactive_latexpdf_compiler.py`): split the document
into lines, search each line for the heading regex, and collect one record
per matching line in order. -/
def extract_toc_lines (content : String) : List TocItem :=
  tocAux 0 (splitlinesChars content.toList)

example : extract_toc_lines "\\section{Intro}\n\\subsection{Background}" =
    [⟨"Intro", 0, "section"⟩, ⟨"Background", 1, "subsection"⟩] := by decide

example : extract_toc_lines "no heading here" = [] := by decide

example : extract_toc_lines "\\section{A} \\section{B}" =
    [⟨"A", 0, "section"⟩] := by decide

example : extract_toc_lines "\\subsection*{Star}" =
    [⟨"Star", 0, "subsection"⟩] := by decide

example :
    extract_toc_lines (String.mk
      ['\\', 's', 'e', 'c', 't', 'i', 'o', 'n', '{', 'a', '{', 'b', '}', 'c', '}'])
      = [⟨String.mk ['a', '{', 'b'], 0, "section"⟩] := by decide

/-! ## Compile orchestrator -/

/-- Outcome of the latexmk subprocess call: a completed run with return
code, standard output and standard error; a raise of
`subprocess.TimeoutExpired`; or a raise of any other exception with its
message text. -/
inductive RunResult where
  | completed (returncode : Int) (stdout stderr : String)
  | timedOut
  | raised (msg : String)
deriving DecidableEq, Repr

/-- The environment a single compile invocation observes: the subprocess
outcome, whether the expected PDF artifact exists afterwards, and the
outcome of reading the artifact bytes (reading may itself raise, which the
orchestrator catches). -/
structure CompileEnv where
  run : RunResult
  pdfExists : Bool
  readArtifact : Except String (List Nat)
deriving Repr

/-- The four-way result classification of a compile invocation. -/
inductive CompileResult where
  | success (artifact : List Nat)
  | failure (diagnostics : String)
  | timeout
  | toolError (msg : String)
deriving DecidableEq, Repr

/-- Whether a compile result is a success. -/
def CompileResult.isSuccess : CompileResult → Bool
  | .success _ => true
  | _ => false

/-- The shared try/except compile block: on a completed run, succeed exactly
when the return code is zero and the PDF exists, reading the artifact bytes;
otherwise fail with standard output concatenated with standard error.  A
timeout raise becomes `timeout`; any other raise (from the subprocess call
or from reading the artifact) becomes `toolError` with the exception
message.  Embedded from `latex_compiler.py` lines 85 to 128 and
`advanced_texcompilation.py` lines 89 to 111. -/
def compileDoc (env : CompileEnv) : CompileResult :=
  match env.run with
  | .timedOut => .timeout
  | .raised msg => .toolError msg
  | .completed rc out err =>
    if rc = 0 ∧ env.pdfExists = true then
      match env.readArtifact with
      | .ok bytes => .success bytes
      | .error msg => .toolError msg
    else .failure (out ++ err)

example :
    compileDoc ⟨.completed 0 "o" "e", true, .ok [1, 2]⟩ = .success [1, 2] := by
  decide

example :
    compileDoc ⟨.completed 0 "o" "e", false, .ok [1]⟩ = .failure "oe" := by
  decide

example : compileDoc ⟨.timedOut, false, .error "x"⟩ = .timeout := by decide

/-! ## Script prologue: the working-directory validation check -/

/-- What the script prologue did before reaching (or not reaching) the
compile block: whether it created the manuscript directory, whether the
external tool was invoked, and whether the script stopped early with a
terminal error message. -/
structure StartupTrace where
  createdDir : Bool
  invokedTool : Bool
  stoppedEarly : Bool
deriving DecidableEq, Repr

/-- Prologue of `advanced_texcompilation.py` (lines 19 to 32 and the compile
block): a missing manuscript directory stops the script with an error
message, creating nothing; a missing tex file likewise stops it; otherwise
the tool is invoked exactly when a compile was triggered. -/
def texcompilationProlog (dirExists hasTex compileTriggered : Bool) :
    StartupTrace :=
  if dirExists = false then ⟨false, false, true⟩
  else if hasTex = false then ⟨false, false, true⟩
  else ⟨false, compileTriggered, false⟩

/-- Prologue of `advanced_interactive_texcompiler.py` (lines 22 to 31) and
`interactive_latexpdf_compiler.py` (lines 22 to 31): a missing manuscript
directory is first created with `os.makedirs`, then the script stops with an
error message; the rest is as in the other variant. -/
def interactiveProlog (dirExists hasTex compileTriggered : Bool) :
    StartupTrace :=
  if dirExists = false then ⟨true, false, true⟩
  else if hasTex = false then ⟨false, false, true⟩
  else ⟨false, compileTriggered, false⟩

/-! ## File-system events of the compile-triggered block -/

/-- File-system and process events performed by the compile-triggered block,
in order. -/
inductive FsEvent where
  | writeFile (path : String)
  | deleteFile (path : String)
  | runTool
  | readFile (path : String)
deriving DecidableEq, Repr

/-- Event trace of the compile-triggered block of
`advanced_interactive_texcompiler.py` lines 144 to 182 (identical in
`interactive_latexpdf_compiler.py` lines 131 to 171): write the edited
source to the tex file, run latexmk, and on success read the PDF artifact
and write it to a fresh temporary file for the previewer.  On failure,
timeout or exception no further file events occur. -/
def compileTriggeredTrace (texPath pdfPath tmpPath : String)
    (env : CompileEnv) : List FsEvent :=
  FsEvent.writeFile texPath :: FsEvent.runTool ::
    match env.run with
    | .completed rc _ _ =>
      if rc = 0 ∧ env.pdfExists = true then
        [FsEvent.readFile pdfPath, FsEvent.writeFile tmpPath]
      else []
    | _ => []

/-! ## Tree mode -/

/-- Modelled from the spec: the fixed depth ordering of the seven heading
levels, part shallowest through subparagraph deepest (section 4.1 and the
tree-mode invariant of section 8).  No tree-building code is present in the
sources under verification; only the flat variants are. -/
def levelDepth : String → Nat
  | "part" => 0
  | "chapter" => 1
  | "section" => 2
  | "subsection" => 3
  | "subsubsection" => 4
  | "paragraph" => 5
  | "subparagraph" => 6
  | _ => 7

/-- A flat outline entry fed to the tree builder: title, depth in the fixed
level ordering, and zero-based source line. -/
structure OutlineItem where
  title : String
  depth : Nat
  line : Nat
deriving DecidableEq, Repr

/-- A node of the hierarchical outline. -/
inductive OutlineTree where
  | node (title : String) (depth : Nat) (line : Nat)
      (children : List OutlineTree)

/-- The depth stored at the root of a tree node. -/
def OutlineTree.depthOf : OutlineTree → Nat
  | .node _ d _ _ => d

/-- Whether a new heading of the given depth opens a new node under the
current parent: always at the root, and below a parent exactly when the new
depth is strictly deeper. -/
def opensUnder (pd : Option Nat) (d : Nat) : Bool :=
  match pd with
  | none => true
  | some p => decide (p < d)

/-- Modelled from the spec: tree-mode grouping (section 4.1).  Reading the
flat items left to right, a heading strictly deeper than the current parent
becomes a new child node and collects the following deeper headings as its
descendants; a heading not deeper than the current parent closes the branch
and is handed back to the nearest ancestor that can take it, reaching the
root when no open ancestor is shallower.  The fuel argument bounds the
recursion and is sufficient whenever it is at least the number of items.
Returns the forest built at this level together with the unconsumed
items. -/
def buildForest : Nat → Option Nat → List OutlineItem →
    List OutlineTree × List OutlineItem
  | 0, _, items => ([], items)
  | _ + 1, _, [] => ([], [])
  | fuel + 1, pd, it :: rest =>
    if opensUnder pd it.depth then
      let r1 := buildForest fuel (some it.depth) rest
      let r2 := buildForest fuel pd r1.2
      (OutlineTree.node it.title it.depth it.line r1.1 :: r2.1, r2.2)
    else ([], it :: rest)

/-- Modelled from the spec: the tree-mode outline of a flat item list. -/
def buildTree (items : List OutlineItem) : List OutlineTree :=
  (buildForest items.length none items).1

/-- The flat items of a document, as handed to the tree builder. -/
def outlineItems (content : String) : List OutlineItem :=
  (extract_toc_lines content).map fun it => ⟨it.title, levelDepth it.level, it.line⟩

/-- Modelled from the spec: the tree-mode outline of a document. -/
def treeOutline (content : String) : List OutlineTree :=
  buildTree (outlineItems content)

/-- The tree-mode nesting invariant: every child is strictly deeper than its
parent, recursively. -/
inductive WellNested : OutlineTree → Prop where
  | node : ∀ (t : String) (d line : Nat) (kids : List OutlineTree),
      (∀ c ∈ kids, d < c.depthOf) →
      (∀ c ∈ kids, WellNested c) →
      WellNested (.node t d line kids)

mutual

/-- Preorder flattening of one tree back to flat items. -/
def flattenTree : OutlineTree → List OutlineItem
  | .node t d l kids => ⟨t, d, l⟩ :: flattenForest kids

/-- Preorder flattening of a forest. -/
def flattenForest : List OutlineTree → List OutlineItem
  | [] => []
  | t :: ts => flattenTree t ++ flattenForest ts

end

example : treeOutline "\\section{Intro}\n\\subsection{Background}\n\\subsection{Motivation}" =
    [OutlineTree.node "Intro" 2 0
      [OutlineTree.node "Background" 3 1 [],
       OutlineTree.node "Motivation" 3 2 []]] := rfl

example : treeOutline "\\subsection{B}\n\\section{A}" =
    [OutlineTree.node "B" 3 0 [], OutlineTree.node "A" 2 1 []] := rfl

/-! ## Lemmas about the anchored heading match -/

theorem stripKeyword_self (ks cs : List Char) :
    stripKeyword ks (ks ++ cs) = some cs := by
  induction ks with
  | nil => rfl
  | cons k ks ih => simp [stripKeyword, ih]

theorem matchKeyword_self (kind : String) (hk : kind ∈ headingKinds)
    (tail : List Char) :
    matchKeyword (kind.toList ++ tail) = some (kind, tail) := by
  fin_cases hk <;> rfl

theorem dropWhile_append_of_all {p : Char → Bool} (ws l : List Char)
    (h : ∀ c ∈ ws, p c = true) :
    List.dropWhile p (ws ++ l) = List.dropWhile p l := by
  induction ws with
  | nil => rfl
  | cons c ws ih =>
    have hc : p c = true := h c (List.mem_cons_self _ _)
    simp only [List.cons_append, List.dropWhile_cons, hc, if_true]
    exact ih fun d hd => h d (List.mem_cons_of_mem _ hd)

theorem takeTitle_append (title rest : List Char) (h : '}' ∉ title) :
    takeTitle (title ++ '}' :: rest) = some title := by
  induction title with
  | nil => simp [takeTitle]
  | cons c cs ih =>
    have hc : ¬ c = '}' := fun e => h (e ▸ List.mem_cons_self _ _)
    have hm : '}' ∉ cs := fun m => h (List.mem_cons_of_mem _ m)
    simp [takeTitle, hc, ih hm]

theorem takeTitle_eq_takeWhile (body : List Char) (h : '}' ∈ body) :
    takeTitle body = some (body.takeWhile fun c => c != '}') := by
  induction body with
  | nil => cases h
  | cons c cs ih =>
    by_cases hc : c = '}'
    · subst hc
      simp [takeTitle, List.takeWhile_cons]
    · have hm : '}' ∈ cs := by
        rcases List.mem_cons.mp h with h1 | h1
        · exact absurd h1.symm hc
        · exact h1
      simp [takeTitle, hc, List.takeWhile_cons, ih hm]

theorem matchHeadingAt_headingLineBody (kind : String)
    (hk : kind ∈ headingKinds) (star : Bool) (ws body : List Char)
    (hws : ∀ c ∈ ws, pySpace c = true) :
    matchHeadingAt (headingLineBody kind star ws body)
      = (takeTitle body).map fun t => (kind, t) := by
  have hstar : dropStar ((if star then ['*'] else []) ++ (ws ++ '{' :: body))
      = ws ++ '{' :: body := by
    cases star with
    | true => simp [dropStar]
    | false =>
      cases ws with
      | nil => simp [dropStar]
      | cons w ws' =>
        have hw : pySpace w = true := hws w (List.mem_cons_self _ _)
        have hwne : ¬ w = '*' := by
          intro e
          rw [e] at hw
          exact absurd hw (by decide)
        simp [dropStar, hwne]
  have hdrop : ((dropStar ((if star then ['*'] else []) ++ (ws ++ '{' :: body))).dropWhile pySpace)
      = '{' :: body := by
    rw [hstar, dropWhile_append_of_all ws _ hws]
    simp [List.dropWhile_cons, show pySpace '{' = false from rfl]
  show matchHeadingAt ('\\' :: (kind.toList ++ ((if star then ['*'] else []) ++ (ws ++ '{' :: body)))) = _
  rw [matchHeadingAt, matchKeyword_self kind hk]
  simp only [hdrop]

theorem matchHeadingAt_headingLine (kind : String) (hk : kind ∈ headingKinds)
    (star : Bool) (ws title rest : List Char)
    (hws : ∀ c ∈ ws, pySpace c = true) (ht : '}' ∉ title) :
    matchHeadingAt (headingLine kind star ws title rest)
      = some (kind, title) := by
  unfold headingLine
  rw [matchHeadingAt_headingLineBody kind hk star ws _ hws,
    takeTitle_append title rest ht]
  rfl

/-! ## Lemmas about the per-line search and the extraction loop -/

theorem lineSearch_cons (c : Char) (cs : List Char) :
    lineSearch (c :: cs) = match matchHeadingAt (c :: cs) with
      | some r => some r
      | none => lineSearch cs := rfl

theorem lineSearch_eq_none_iff (cs : List Char) :
    lineSearch cs = none ↔ ∀ i, matchHeadingAt (cs.drop i) = none := by
  induction cs with
  | nil =>
    constructor
    · intro _ i
      cases i <;> rfl
    · intro _
      rfl
  | cons c cs ih =>
    cases hm : matchHeadingAt (c :: cs) with
    | some r =>
      simp only [lineSearch_cons, hm]
      constructor
      · intro h
        exact absurd h (by simp)
      · intro h
        exact absurd (h 0) (by simp [hm])
    | none =>
      simp only [lineSearch_cons, hm]
      rw [ih]
      constructor
      · intro h i
        cases i with
        | zero => exact hm
        | succ j => simpa using h j
      · intro h j
        simpa using h (j + 1)

theorem lineSearch_leftmost (cs : List Char) (r : String × List Char)
    (h : lineSearch cs = some r) :
    ∃ i, matchHeadingAt (cs.drop i) = some r ∧
      ∀ j, j < i → matchHeadingAt (cs.drop j) = none := by
  induction cs with
  | nil => exact absurd h (by simp [lineSearch])
  | cons c cs ih =>
    cases hm : matchHeadingAt (c :: cs) with
    | some r' =>
      have hr : r' = r := by
        rw [lineSearch_cons, hm] at h
        exact Option.some.inj h
      exact ⟨0, by simpa [hr] using hm, fun j hj => absurd hj (by omega)⟩
    | none =>
      have h' : lineSearch cs = some r := by
        rw [lineSearch_cons, hm] at h
        exact h
      obtain ⟨i, hi, hbefore⟩ := ih h'
      refine ⟨i + 1, by simpa using hi, ?_⟩
      intro j hj
      cases j with
      | zero => simpa using hm
      | succ j' => simpa using hbefore j' (by omega)

theorem lineSearch_isSome_eq_hasHeading (cs : List Char) :
    (lineSearch cs).isSome = hasHeading cs := by
  cases hl : lineSearch cs with
  | none =>
    have hall := (lineSearch_eq_none_iff cs).mp hl
    have : hasHeading cs = false := by
      simp only [hasHeading, List.any_eq_false]
      intro i _
      simp [hall i]
    simp [this]
  | some r =>
    obtain ⟨i, hi, -⟩ := lineSearch_leftmost cs r hl
    have hilt : i < cs.length + 1 := by
      by_contra hgt
      push_neg at hgt
      have hdrop : cs.drop i = [] := List.drop_eq_nil_of_le (by omega)
      rw [hdrop] at hi
      exact absurd hi (by simp [matchHeadingAt])
    have : hasHeading cs = true := by
      simp only [hasHeading, List.any_eq_true]
      exact ⟨i, List.mem_range.mpr hilt, by simp [hi]⟩
    simp [this]

theorem lineSearch_append_of_none (pre l : List Char)
    (h : ∀ j, j < pre.length → matchHeadingAt (List.drop j (pre ++ l)) = none) :
    lineSearch (pre ++ l) = lineSearch l := by
  induction pre with
  | nil => rfl
  | cons c pre ih =>
    have h0 : matchHeadingAt (c :: (pre ++ l)) = none := by
      simpa using h 0 (by simp)
    rw [List.cons_append, lineSearch_cons, h0]
    exact ih fun j hj => by simpa using h (j + 1) (by simpa using hj)

theorem lineSearch_of_match (c : Char) (cs : List Char) (r : String × List Char)
    (h : matchHeadingAt (c :: cs) = some r) : lineSearch (c :: cs) = some r := by
  rw [lineSearch_cons, h]

theorem tocAux_length (i : Nat) (ls : List (List Char)) :
    (tocAux i ls).length = ls.countP fun l => (lineSearch l).isSome := by
  induction ls generalizing i with
  | nil => rfl
  | cons l ls ih =>
    cases hl : lineSearch l with
    | some r =>
      obtain ⟨lv, t⟩ := r
      simp [tocAux, hl, List.countP_cons, ih]
    | none =>
      simp [tocAux, hl, List.countP_cons, ih]

theorem tocAux_le_line (i : Nat) (ls : List (List Char)) :
    ∀ it ∈ tocAux i ls, i ≤ it.line := by
  induction ls generalizing i with
  | nil => simp [tocAux]
  | cons l ls ih =>
    intro it hit
    cases hl : lineSearch l with
    | some r =>
      obtain ⟨lv, t⟩ := r
      rw [tocAux, hl] at hit
      rcases List.mem_cons.mp hit with rfl | hit'
      · exact Nat.le_refl _
      · exact Nat.le_of_succ_le (ih (i + 1) it hit')
    | none =>
      rw [tocAux, hl] at hit
      exact Nat.le_of_succ_le (ih (i + 1) it hit)

theorem tocAux_pairwise (i : Nat) (ls : List (List Char)) :
    (tocAux i ls).Pairwise fun a b => a.line < b.line := by
  induction ls generalizing i with
  | nil => simp [tocAux]
  | cons l ls ih =>
    cases hl : lineSearch l with
    | some r =>
      obtain ⟨lv, t⟩ := r
      rw [tocAux, hl]
      refine List.Pairwise.cons ?_ (ih (i + 1))
      intro b hb
      have := tocAux_le_line (i + 1) ls b hb
      simpa using Nat.lt_of_succ_le this
    | none =>
      rw [tocAux, hl]
      exact ih (i + 1)

theorem tocAux_mem (i j : Nat) (ls : List (List Char)) (l : List Char)
    (lv : String) (t : List Char) (hg : ls.get? j = some l)
    (hl : lineSearch l = some (lv, t)) :
    (⟨String.mk t, i + j, lv⟩ : TocItem) ∈ tocAux i ls := by
  induction ls generalizing i j with
  | nil => simp at hg
  | cons hd ls ih =>
    cases j with
    | zero =>
      have hhd : hd = l := by simpa using hg
      subst hhd
      rw [tocAux, hl]
      simp
    | succ j' =>
      have hg' : ls.get? j' = some l := by simpa using hg
      have harith : i + (j' + 1) = (i + 1) + j' := by omega
      rw [harith]
      have hmem := ih (i + 1) j' hg'
      cases hh : lineSearch hd with
      | some r =>
        obtain ⟨lv', t'⟩ := r
        rw [tocAux, hh]
        exact List.mem_cons_of_mem _ hmem
      | none =>
        rw [tocAux, hh]
        exact hmem

/-! ## Lemmas about the tree builder -/

theorem buildForest_snd_length (fuel : Nat) (pd : Option Nat)
    (items : List OutlineItem) :
    (buildForest fuel pd items).2.length ≤ items.length := by
  induction fuel generalizing pd items with
  | zero => simp [buildForest]
  | succ fuel ih =>
    cases items with
    | nil => simp [buildForest]
    | cons it rest =>
      by_cases h : opensUnder pd it.depth = true
      · simp only [buildForest, h, if_true, List.length_cons]
        calc (buildForest fuel pd (buildForest fuel (some it.depth) rest).2).2.length
            ≤ (buildForest fuel (some it.depth) rest).2.length := ih _ _
          _ ≤ rest.length := ih _ _
          _ ≤ rest.length + 1 := by omega
      · simp [buildForest, h]

theorem buildForest_wellNested (fuel : Nat) (pd : Option Nat)
    (items : List OutlineItem) :
    ∀ t ∈ (buildForest fuel pd items).1,
      WellNested t ∧ ∀ p, pd = some p → p < t.depthOf := by
  induction fuel generalizing pd items with
  | zero => simp [buildForest]
  | succ fuel ih =>
    cases items with
    | nil => simp [buildForest]
    | cons it rest =>
      by_cases h : opensUnder pd it.depth = true
      · intro t ht
        simp only [buildForest, h, if_true] at ht
        rcases List.mem_cons.mp ht with rfl | ht'
        · constructor
          · refine WellNested.node _ _ _ _ ?_ ?_
            · intro c hc
              exact ((ih (some it.depth) rest) c hc).2 it.depth rfl
            · intro c hc
              exact ((ih (some it.depth) rest) c hc).1
          · intro p hp
            subst hp
            simpa [opensUnder, OutlineTree.depthOf] using h
        · exact ih pd _ t ht'
      · simp [buildForest, h]

theorem buildForest_flatten (fuel : Nat) (pd : Option Nat)
    (items : List OutlineItem) (hfuel : items.length ≤ fuel) :
    flattenForest (buildForest fuel pd items).1 ++ (buildForest fuel pd items).2
      = items := by
  induction fuel generalizing pd items with
  | zero =>
    have hnil : items = [] := List.eq_nil_of_length_eq_zero (by omega)
    subst hnil
    simp [buildForest, flattenForest]
  | succ fuel ih =>
    cases items with
    | nil => simp [buildForest, flattenForest]
    | cons it rest =>
      by_cases h : opensUnder pd it.depth = true
      · have h1 : rest.length ≤ fuel := by
          simp only [List.length_cons] at hfuel
          omega
        have h2 : (buildForest fuel (some it.depth) rest).2.length ≤ fuel :=
          le_trans (buildForest_snd_length _ _ _) h1
        have e1 := ih (some it.depth) rest h1
        have e2 := ih pd _ h2
        simp only [buildForest, h, if_true, flattenForest, flattenTree,
          List.cons_append, List.append_assoc]
        rw [e2, e1]
      · simp [buildForest, h, flattenForest]

theorem buildForest_root_snd (fuel : Nat) (items : List OutlineItem)
    (hfuel : items.length ≤ fuel) :
    (buildForest fuel none items).2 = [] := by
  induction fuel generalizing items with
  | zero =>
    have hnil : items = [] := List.eq_nil_of_length_eq_zero (by omega)
    subst hnil
    rfl
  | succ fuel ih =>
    cases items with
    | nil => rfl
    | cons it rest =>
      have h : opensUnder none it.depth = true := rfl
      simp only [buildForest, h, if_true]
      refine ih _ (le_trans (buildForest_snd_length _ _ _) ?_)
      simp only [List.length_cons] at hfuel
      omega

theorem buildTree_wellNested (items : List OutlineItem) :
    ∀ t ∈ buildTree items, WellNested t :=
  fun t ht => ((buildForest_wellNested items.length none items) t ht).1

theorem buildTree_flatten (items : List OutlineItem) :
    flattenForest (buildTree items) = items := by
  have h := buildForest_flatten items.length none items (Nat.le_refl _)
  rw [buildForest_root_snd items.length items (Nat.le_refl _),
    List.append_nil] at h
  exact h

/-! ## Claim theorems -/

/-- C1: for every source text, `extract_toc_lines` returns exactly one
record per line that contains at least one recognized heading command — the
record of the first (leftmost) heading on that line — so the length of the
returned sequence equals the number of lines containing at least one
recognized heading command, and a line with two heading commands yields one
record. -/
theorem extract_one_node_per_heading_line (content : String) :
    (extract_toc_lines content).length
      = (splitlinesChars content.toList).countP (fun l => hasHeading l)
  ∧ ∀ l ∈ splitlinesChars content.toList, ∀ r, lineSearch l = some r →
      ∃ i, matchHeadingAt (l.drop i) = some r ∧
        ∀ j, j < i → matchHeadingAt (l.drop j) = none := by
  constructor
  · rw [extract_toc_lines, tocAux_length]
    exact List.countP_congr fun l _ => by rw [lineSearch_isSome_eq_hasHeading]
  · intro l _ r h
    exact lineSearch_leftmost l r h

/-- Witness for C1: a document whose first line holds two heading commands
still contributes a single record. -/
theorem extract_one_node_per_heading_line_witness :
    (extract_toc_lines "\\section{A} \\subsection{B}\nplain").length
      = (splitlinesChars "\\section{A} \\subsection{B}\nplain".toList).countP
          (fun l => hasHeading l) :=
  (extract_one_node_per_heading_line "\\section{A} \\subsection{B}\nplain").1

/-- C9: the sequence returned by the extractor is sorted non-decreasing by
source line, listing the headings in the order they appear in the text. -/
theorem extract_sorted_by_sourceLine (content : String) :
    (extract_toc_lines content).Pairwise fun a b => a.line ≤ b.line := by
  refine (tocAux_pairwise 0 _).imp ?_
  intro a b h
  omega

/-- C3: a line whose first heading command is one of the seven recognized
kinds, optionally starred, followed by a braced title, yields the record
with that level and that title; when such a line is the i-th line of a
document the extraction contains the corresponding record. -/
theorem recognized_heading_yields_node (kind : String)
    (hk : kind ∈ headingKinds) (star : Bool) (pre ws title rest : List Char)
    (hpre : ∀ j, j < pre.length →
      matchHeadingAt
        (List.drop j (pre ++ headingLine kind star ws title rest)) = none)
    (hws : ∀ c ∈ ws, pySpace c = true) (ht : '}' ∉ title) :
    lineSearch (pre ++ headingLine kind star ws title rest)
        = some (kind, title)
  ∧ ∀ content i,
      (splitlinesChars content.toList).get? i
          = some (pre ++ headingLine kind star ws title rest) →
      (⟨String.mk title, i, kind⟩ : TocItem) ∈ extract_toc_lines content := by
  have hmatch := matchHeadingAt_headingLine kind hk star ws title rest hws ht
  rw [headingLine, headingLineBody] at hmatch
  have hsearch : lineSearch (pre ++ headingLine kind star ws title rest)
      = some (kind, title) := by
    rw [lineSearch_append_of_none pre _ hpre, headingLine, headingLineBody]
    exact lineSearch_of_match _ _ _ hmatch
  refine ⟨hsearch, ?_⟩
  intro content i hi
  have hmem := tocAux_mem 0 i _ _ kind title hi hsearch
  simpa [extract_toc_lines] using hmem

/-- Witness for C3 at a concrete starred-free section heading preceded by
two non-heading characters. -/
theorem recognized_heading_yields_node_witness :
    lineSearch (['x', ' '] ++ headingLine "section" false [] ['I', 'n'] [])
      = some ("section", ['I', 'n']) :=
  (recognized_heading_yields_node "section" (by decide) false ['x', ' '] []
    ['I', 'n'] [] (by decide) (by decide) (by decide)).1

/-- C8: the extracted title is the verbatim text between the first open
brace after the heading command and the first subsequent close brace;
nested braces are not specially handled, so a body containing an inner
close brace is truncated at that first close brace. -/
theorem title_truncated_at_first_close_brace (kind : String)
    (hk : kind ∈ headingKinds) (star : Bool) (ws body : List Char)
    (hws : ∀ c ∈ ws, pySpace c = true) (hb : '}' ∈ body) :
    matchHeadingAt (headingLineBody kind star ws body)
      = some (kind, body.takeWhile fun c => c != '}') := by
  rw [matchHeadingAt_headingLineBody kind hk star ws body hws,
    takeTitle_eq_takeWhile body hb]
  rfl

/-- Witness for C8: the braced argument a, open brace, b, close brace, c,
close brace is truncated to a, open brace, b. -/
theorem title_truncated_at_first_close_brace_witness :
    matchHeadingAt (headingLineBody "section" true [' ']
        ['a', '{', 'b', '}', 'c', '}'])
      = some ("section", ['a', '{', 'b']) :=
  title_truncated_at_first_close_brace "section" (by decide) true [' ']
    ['a', '{', 'b', '}', 'c', '}'] (by decide) (by decide)

/-- C2: a compile invocation whose subprocess run completed and whose
artifact read does not raise is a success exactly when the return code is
zero and the expected artifact exists on disk afterwards; a zero return
code with the artifact missing is not a success. -/
theorem compile_success_iff_exit_zero_and_artifact (env : CompileEnv)
    (rc : Int) (out err : String) (bytes : List Nat)
    (hrun : env.run = .completed rc out err)
    (hread : env.readArtifact = .ok bytes) :
    (compileDoc env).isSuccess = true ↔ (rc = 0 ∧ env.pdfExists = true) := by
  by_cases h : rc = 0 ∧ env.pdfExists = true
  · simp only [compileDoc, hrun, if_pos h, hread]
    simp [CompileResult.isSuccess, h]
  · simp only [compileDoc, hrun, if_neg h]
    simp [CompileResult.isSuccess, h]

/-- Witness for C2: zero exit status and existing artifact give success. -/
theorem compile_success_iff_exit_zero_and_artifact_witness :
    (compileDoc ⟨.completed 0 "o" "e", true, .ok [37]⟩).isSuccess = true :=
  (compile_success_iff_exit_zero_and_artifact
    ⟨.completed 0 "o" "e", true, .ok [37]⟩ 0 "o" "e" [37] rfl rfl).mpr
    (by decide)

/-- C4: on a completed run with non-zero exit status or with the expected
artifact missing, the result is a failure whose diagnostic text is exactly
the tool's standard output concatenated with its standard error, and no
artifact bytes are surfaced. -/
theorem compile_failure_concatenated_diagnostics (env : CompileEnv)
    (rc : Int) (out err : String) (hrun : env.run = .completed rc out err)
    (hfail : ¬ (rc = 0 ∧ env.pdfExists = true)) :
    compileDoc env = .failure (out ++ err)
  ∧ ∀ b, compileDoc env ≠ .success b := by
  have h : compileDoc env = .failure (out ++ err) := by
    simp only [compileDoc, hrun, if_neg hfail]
  refine ⟨h, ?_⟩
  intro b hb
  rw [h] at hb
  cases hb

/-- Witness for C4: exit status one with existing artifact fails with the
concatenated log. -/
theorem compile_failure_concatenated_diagnostics_witness :
    compileDoc ⟨.completed 1 "out" "err", true, .ok []⟩
      = .failure ("out" ++ "err") :=
  (compile_failure_concatenated_diagnostics
    ⟨.completed 1 "out" "err", true, .ok []⟩ 1 "out" "err" rfl (by decide)).1

/-- C7: no raw exception propagates: a timeout raise yields the timeout
result; any other raise — from invoking the tool, or from reading the
artifact on runs that reach the read — yields the tool-error result
carrying the exception message; and every invocation is classified as one
of success, failure, timeout or tool error. -/
theorem compile_four_way_classification (env : CompileEnv) :
    (env.run = .timedOut → compileDoc env = .timeout)
  ∧ (∀ msg, env.run = .raised msg → compileDoc env = .toolError msg)
  ∧ (∀ rc out err msg, env.run = .completed rc out err →
      env.readArtifact = .error msg → rc = 0 → env.pdfExists = true →
      compileDoc env = .toolError msg)
  ∧ ((∃ b, compileDoc env = .success b) ∨ (∃ d, compileDoc env = .failure d)
      ∨ compileDoc env = .timeout ∨ ∃ m, compileDoc env = .toolError m) := by
  refine ⟨?_, ?_, ?_, ?_⟩
  · intro h
    simp [compileDoc, h]
  · intro msg h
    simp [compileDoc, h]
  · intro rc out err msg hrun hread hrc hpdf
    simp only [compileDoc, hrun, hread]
    exact if_pos ⟨hrc, hpdf⟩
  · cases h : compileDoc env with
    | success b => exact Or.inl ⟨b, rfl⟩
    | failure d => exact Or.inr (Or.inl ⟨d, rfl⟩)
    | timeout => exact Or.inr (Or.inr (Or.inl rfl))
    | toolError m => exact Or.inr (Or.inr (Or.inr ⟨m, rfl⟩))

/-- Witness for C7: a timed-out run is classified as timeout. -/
theorem compile_four_way_classification_witness :
    compileDoc ⟨.timedOut, false, .ok []⟩ = .timeout :=
  (compile_four_way_classification ⟨.timedOut, false, .ok []⟩).1 rfl

/-- C5 counterexample: in the interactive variants a compile request
against a missing working directory creates the directory before stopping,
so the claim that nothing is created is false at this concrete input. -/
theorem missing_dir_counterexample :
    ¬ ((interactiveProlog false true true).createdDir = false) := by decide

/-- C5 amended: a compile request against a missing working directory stops
the script with a terminal message and never invokes the external tool, in
every variant; the advanced-texcompilation variant creates nothing, while
the interactive variants first create the missing directory (empty) and
then stop. -/
theorem missing_dir_aborts_without_tool :
    ∀ hasTex compileTriggered : Bool,
      (texcompilationProlog false hasTex compileTriggered).stoppedEarly = true
    ∧ (texcompilationProlog false hasTex compileTriggered).invokedTool = false
    ∧ (texcompilationProlog false hasTex compileTriggered).createdDir = false
    ∧ (interactiveProlog false hasTex compileTriggered).stoppedEarly = true
    ∧ (interactiveProlog false hasTex compileTriggered).invokedTool = false
    ∧ (interactiveProlog false hasTex compileTriggered).createdDir = true := by
  decide

/-- C6: the compile-triggered block writes the edited source exactly once,
before the tool is invoked; it deletes no file, and after the tool run it
neither writes nor deletes the source file — the remaining events only read
the artifact and write the preview temporary file. -/
theorem compile_block_preserves_source (texPath pdfPath tmpPath : String)
    (env : CompileEnv) (htmp : tmpPath ≠ texPath) :
    (∀ p, FsEvent.deleteFile p ∉
        compileTriggeredTrace texPath pdfPath tmpPath env)
  ∧ ∃ post, compileTriggeredTrace texPath pdfPath tmpPath env
        = FsEvent.writeFile texPath :: FsEvent.runTool :: post
      ∧ FsEvent.writeFile texPath ∉ post
      ∧ FsEvent.deleteFile texPath ∉ post := by
  cases hr : env.run with
  | completed rc out err =>
    by_cases h : rc = 0 ∧ env.pdfExists = true
    · constructor
      · intro p
        simp [compileTriggeredTrace, hr, h]
      · refine ⟨[FsEvent.readFile pdfPath, FsEvent.writeFile tmpPath],
          ?_, ?_, ?_⟩
        · simp [compileTriggeredTrace, hr, h]
        · simp [Ne.symm htmp]
        · simp
    · constructor
      · intro p
        simp [compileTriggeredTrace, hr, h]
      · exact ⟨[], by simp [compileTriggeredTrace, hr, h], by simp, by simp⟩
  | timedOut =>
    constructor
    · intro p
      simp [compileTriggeredTrace, hr]
    · exact ⟨[], by simp [compileTriggeredTrace, hr], by simp, by simp⟩
  | raised msg =>
    constructor
    · intro p
      simp [compileTriggeredTrace, hr]
    · exact ⟨[], by simp [compileTriggeredTrace, hr], by simp, by simp⟩

/-- Witness for C6 on a successful concrete run. -/
theorem compile_block_preserves_source_witness :
    FsEvent.deleteFile "m/p.tex" ∉
      compileTriggeredTrace "m/p.tex" "m/p.pdf" "/tmp/q.pdf"
        ⟨.completed 0 "o" "e", true, .ok []⟩ :=
  (compile_block_preserves_source "m/p.tex" "m/p.pdf" "/tmp/q.pdf"
    ⟨.completed 0 "o" "e", true, .ok []⟩ (by decide)).1 "m/p.tex"

/-- C10: in tree mode every non-root node is strictly deeper than its
parent in the fixed level ordering; the tree lists exactly the extracted
headings in order (none dropped, no error raised); and a heading with no
open shallower ancestor is attached as a root-level node, as on the
concrete document where a subsection precedes any section. -/
theorem tree_mode_strict_nesting (content : String) :
    (∀ t ∈ treeOutline content, WellNested t)
  ∧ flattenForest (treeOutline content) = outlineItems content
  ∧ treeOutline "\\subsection{B}\n\\section{A}"
      = [OutlineTree.node "B" 3 0 [], OutlineTree.node "A" 2 1 []] :=
  ⟨buildTree_wellNested _, buildTree_flatten _, rfl⟩
